import Mathlib

set_option maxHeartbeats 1000000

/-!
Verification development for the coding-agent repository.

The repository consists of a sandboxed filesystem tool layer
(`tools.py`: `_resolve_relative`, `list_files`, `read_file`, `edit_file`)
and a tool-calling orchestration loop (`core.py`: `handle`, `run_tool`),
duplicated in two packages (`agent` and `coding_agent`).

Shallow embedding conventions:
* A POSIX absolute path is modelled as its list of components
  (`/home/u/proj` is `["home", "u", "proj"]`); `pathlib.Path` objects are
  component sequences, `as_posix`/`str` joins them with `"/"`.
* The filesystem is a finite tree `Entry` (files with string content,
  directories with named children in scandir order).
* Python exceptions raised by the tools become `Except PyErr` results;
  `PyErr` carries the exception's class (as `ErrKind`) and its `str(e)`
  message, which is what `run_tool` reports.
* The `pathspec` gitignore matcher compiled by `_get_gitignore` is an
  external library value; it is abstracted as a predicate
  `ignore : String → Bool` over the exact strings `list_files` passes to
  `match_file`.
-/

/-- Exception classes raised by the tool layer (`ValueError` splits into the
two spec error names `InvalidPath` and `PathEscape`). -/
inductive ErrKind where
  | invalidPath
  | pathEscape
  | notFound
  | isADirectory
  | fileExists
  | notADirectory
  | keyError
  deriving DecidableEq, Repr

/-- A raised Python exception: its class and its `str(e)` message text. -/
structure PyErr where
  kind : ErrKind
  msg : String
  deriving DecidableEq, Repr

deriving instance DecidableEq for Except

/-- Splitting a string at every `'/'`, keeping empty pieces
(`str.split("/")` on the POSIX separator). -/
def splitSlashAux : List Char → List Char → List String
  | [], acc => [String.mk acc.reverse]
  | c :: rest, acc =>
    if c = '/' then String.mk acc.reverse :: splitSlashAux rest []
    else splitSlashAux rest (c :: acc)

def splitOnSlash (s : String) : List String :=
  splitSlashAux s.data []

/-- Parsing a relative path string into `pathlib` components: split on the
separator, drop empty components (repeated or trailing separators) and `"."`
components, keep `".."` (pure-path parsing of `PurePosixPath(path_str)`). -/
def parseRel (s : String) : List String :=
  (splitOnSlash s).filter (fun c => c != "" && c != ".")

/-- Embedding of `PurePosixPath(s).is_absolute()`: the string has a root, i.e. begins
with the separator. -/
def isAbsolutePath (s : String) : Bool :=
  match s.data with
  | c :: _ => c = '/'
  | [] => false

/-- Lexical normalization performed by `Path.resolve()` in the absence of
symlinks: process components left to right, `".."` removes the last
component (and is a no-op at the filesystem root). -/
def normComps (cs : List String) : List String :=
  cs.foldl (fun acc c => if c = ".." then acc.dropLast else acc ++ [c]) []

/-- Joining path components with the separator (`"/".join`). -/
def joinComps : List String → String
  | [] => ""
  | [c] => c
  | c :: rest => c ++ "/" ++ joinComps rest

/-- Rendering `str(p)` / `p.as_posix()` for an absolute path given by components. -/
def pathToString (p : List String) : String :=
  "/" ++ joinComps p

/-- Embedding of `abs_path.parents`: every proper ancestor of the path, down to the
filesystem root (membership is what `_resolve_relative` tests). -/
def parents (p : List String) : List (List String) :=
  (List.range p.length).map (fun k => p.take k)

/-- Embedding of `_resolve_relative` (tools.py:68-97): reject empty and
absolute inputs, resolve against the project root, reject candidates that
are neither the root nor strictly inside it. `root` is the component list
of `Path(".").resolve()`. -/
def _resolve_relative (root : List String) (path_str : String) : Except PyErr (List String) :=
  if path_str = "" then
    .error ⟨.invalidPath, "`path` is required"⟩
  else if isAbsolutePath path_str then
    .error ⟨.invalidPath, "Absolute paths are not allowed"⟩
  else
    let abs_path := normComps (root ++ parseRel path_str)
    if ¬ (root ∈ parents abs_path) ∧ abs_path ≠ root then
      .error ⟨.pathEscape, "Path escapes project root"⟩
    else
      .ok abs_path

/-- Membership in `parents` is exactly strict list-prefix: the ancestors of
an absolute path are its proper component-prefixes. -/
theorem mem_parents_iff (root p : List String) :
    root ∈ parents p ↔ (root <+: p ∧ root ≠ p) := by
  unfold parents
  simp only [List.mem_map, List.mem_range]
  constructor
  · rintro ⟨k, hk, rfl⟩
    refine ⟨List.take_prefix k p, ?_⟩
    intro h
    have := congrArg List.length h
    simp [List.length_take] at this
    omega
  · rintro ⟨hpre, hne⟩
    refine ⟨root.length, ?_, ?_⟩
    · rcases Nat.lt_or_ge root.length p.length with h | h
      · exact h
      · exfalso
        exact hne (List.IsPrefix.eq_of_length_le hpre h)
    · exact (List.prefix_iff_eq_take.mp hpre).symm

theorem root_prefix_iff (root p : List String) :
    (root ∈ parents p ∨ p = root) ↔ root <+: p := by
  rw [mem_parents_iff]
  constructor
  · rintro (⟨h, _⟩ | rfl)
    · exact h
    · exact List.prefix_rfl
  · intro h
    by_cases hq : root = p
    · exact Or.inr hq.symm
    · exact Or.inl ⟨h, hq⟩

/-- Full behavioural characterization of `_resolve_relative`, shared by the
sandbox theorems below: invalid inputs, escaping candidates, and the value
returned on acceptance. -/
theorem resolve_spec (root : List String) (p : String) :
    ((∃ m, _resolve_relative root p = .error ⟨.invalidPath, m⟩) ↔
       (p = "" ∨ isAbsolutePath p = true))
    ∧ ((∃ m, _resolve_relative root p = .error ⟨.pathEscape, m⟩) ↔
       (p ≠ "" ∧ isAbsolutePath p = false
         ∧ ¬ root <+: normComps (root ++ parseRel p)))
    ∧ (∀ q, _resolve_relative root p = .ok q →
       q = normComps (root ++ parseRel p) ∧ root <+: q) := by
  unfold _resolve_relative
  by_cases h1 : p = ""
  · simp [h1]
  · by_cases h2 : isAbsolutePath p
    · simp [h1, h2]
    · simp only [h1, h2, if_neg, ite_false, if_false]
      by_cases h3 : root <+: normComps (root ++ parseRel p)
      · have hcond : ¬ (¬ (root ∈ parents (normComps (root ++ parseRel p)))
            ∧ normComps (root ++ parseRel p) ≠ root) := by
          rcases (root_prefix_iff root (normComps (root ++ parseRel p))).mpr h3 with hmem | heq
          · intro hc
            exact hc.1 hmem
          · intro hc
            exact hc.2 heq
        rw [if_neg hcond]
        refine ⟨by simp, by simp [h1, h2, h3], ?_⟩
        intro q hq
        cases hq
        exact ⟨rfl, h3⟩
      · have hcond : ¬ (root ∈ parents (normComps (root ++ parseRel p)))
            ∧ normComps (root ++ parseRel p) ≠ root := by
          constructor
          · intro hmem
            exact h3 ((root_prefix_iff root _).mp (Or.inl hmem))
          · intro heq
            exact h3 ((root_prefix_iff root _).mp (Or.inr heq))
        rw [if_pos hcond]
        simp [h1, h2, h3]

/-- C1: `_resolve_relative` fails with `InvalidPath` exactly when the input
is empty or absolute, fails with `PathEscape` exactly when the normalized
candidate `project_root/p` is neither the project root nor a descendant of
it (which covers every `".."` traversal that escapes the root), and
otherwise returns the normalized absolute candidate. -/
theorem c1_resolve_characterization (root : List String) (p : String) :
    ((∃ m, _resolve_relative root p = .error ⟨.invalidPath, m⟩) ↔
       (p = "" ∨ isAbsolutePath p = true))
    ∧ ((∃ m, _resolve_relative root p = .error ⟨.pathEscape, m⟩) ↔
       (p ≠ "" ∧ isAbsolutePath p = false
         ∧ ¬ root <+: normComps (root ++ parseRel p)))
    ∧ (∀ q, _resolve_relative root p = .ok q →
       q = normComps (root ++ parseRel p) ∧ root <+: q) :=
  resolve_spec root p

/-- C1 witness: concrete run on the escaping input `"../x"` and on the
accepted input `"a/b/../c"`. -/
theorem c1_resolve_characterization_witness :
    (["pr", "a", "c"] : List String) = normComps (["pr"] ++ parseRel "a/b/../c")
    ∧ ["pr"] <+: ["pr", "a", "c"] :=
  (c1_resolve_characterization ["pr"] "a/b/../c").2.2 ["pr", "a", "c"] (by decide)

/-- C2 counterexample: the input `"."` is non-empty, the sandbox accepts it,
and the result equals the project root — not a strict descendant of it. -/
theorem c2_counterexample :
    _resolve_relative ["home", "u", "proj"] "." = .ok ["home", "u", "proj"]
    ∧ ("." : String) ≠ ""
    ∧ ¬ ((["home", "u", "proj"] : List String) <+: ["home", "u", "proj"]
         ∧ (["home", "u", "proj"] : List String) ≠ ["home", "u", "proj"]) := by
  refine ⟨by decide, by decide, ?_⟩
  rintro ⟨-, h⟩
  exact h rfl

/-- C2 (amended): every path accepted by the sandbox is an absolute path
nested under the project root (equal to it or a descendant), and the empty
input is rejected with `InvalidPath`; the result can equal the project root
also for non-empty inputs whose normalized relative part is empty (such as
`"."` or `"a/.."`), not only for the disallowed empty input. -/
theorem c2_accepted_nested (root : List String) (p : String) (q : List String)
    (h : _resolve_relative root p = .ok q) :
    root <+: q
    ∧ _resolve_relative root "" = .error ⟨.invalidPath, "`path` is required"⟩ :=
  ⟨((resolve_spec root p).2.2 q h).2, rfl⟩

/-- C2 witness: concrete accepted input. -/
theorem c2_accepted_nested_witness :
    (["r"] : List String) <+: ["r", "x"]
    ∧ _resolve_relative ["r"] "" = .error ⟨.invalidPath, "`path` is required"⟩ :=
  c2_accepted_nested ["r"] "x" ["r", "x"] (by decide)

/-- A filesystem tree: regular files with textual content, directories with
their named children in scandir order. -/
inductive Entry where
  | file (content : String)
  | dir (children : List (String × Entry))
  deriving Repr

def Entry.isDir : Entry → Bool
  | .dir _ => true
  | .file _ => false

/-- The entry at an absolute path, descending component by component
(`Path.exists` / `Path.is_dir` are phrased on this lookup). -/
def Entry.find? (p : List String) (e : Entry) : Option Entry :=
  match p with
  | [] => some e
  | c :: rest =>
    match e with
    | .dir cs =>
      match cs.find? (fun kv => kv.1 == c) with
      | some kv => Entry.find? rest kv.2
      | none => none
    | .file _ => none

/-- Replace the binding of a name in a directory's child list, keeping its
position (functional update of one child). -/
def assocSet : List (String × Entry) → String → Entry → List (String × Entry)
  | [], c, e => [(c, e)]
  | (n, x) :: rest, c, e =>
    if n == c then (c, e) :: rest else (n, x) :: assocSet rest c e

/-- Embedding of `open(path, "w")` followed by a full write (`Path.write_text`): every
ancestor must already exist as a directory; the final component is created
or overwritten as a regular file. `orig` is the full path, used only in
exception messages. -/
def writeTextAux (orig : List String) : List String → Entry → String → Except PyErr Entry
  | [], .dir _, _ =>
    .error ⟨.isADirectory, "[Errno 21] Is a directory: '" ++ pathToString orig ++ "'"⟩
  | [], .file _, content => .ok (.file content)
  | [c], .dir cs, content =>
    match cs.find? (fun kv => kv.1 == c) with
    | some kv =>
      match kv.2 with
      | .dir _ =>
        .error ⟨.isADirectory, "[Errno 21] Is a directory: '" ++ pathToString orig ++ "'"⟩
      | .file _ => .ok (.dir (assocSet cs c (.file content)))
    | none => .ok (.dir (cs ++ [(c, .file content)]))
  | c :: c2 :: rest, .dir cs, content =>
    match cs.find? (fun kv => kv.1 == c) with
    | some kv =>
      match writeTextAux orig (c2 :: rest) kv.2 content with
      | .ok sub => .ok (.dir (assocSet cs c sub))
      | .error e => .error e
    | none =>
      .error ⟨.notFound,
        "[Errno 2] No such file or directory: '" ++ pathToString orig ++ "'"⟩
  | _ :: _, .file _, _ =>
    .error ⟨.notADirectory, "[Errno 20] Not a directory: '" ++ pathToString orig ++ "'"⟩

/-- Embedding of `Path.mkdir(parents=True, exist_ok=True)`: create the directory and all
missing ancestors; an existing directory anywhere on the chain is fine, a
regular file on the chain raises (`NotADirectoryError` for a strict
ancestor, `FileExistsError` for the target itself). -/
def mkdirParents (orig : List String) : List String → Entry → Except PyErr Entry
  | [], .dir cs => .ok (.dir cs)
  | [], .file _ =>
    .error ⟨.fileExists, "[Errno 17] File exists: '" ++ pathToString orig ++ "'"⟩
  | c :: rest, .dir cs =>
    match cs.find? (fun kv => kv.1 == c) with
    | some kv =>
      match mkdirParents orig rest kv.2 with
      | .ok sub => .ok (.dir (assocSet cs c sub))
      | .error e => .error e
    | none =>
      match mkdirParents orig rest (.dir []) with
      | .ok sub => .ok (.dir (cs ++ [(c, sub)]))
      | .error e => .error e
  | _ :: _, .file _ =>
    .error ⟨.notADirectory, "[Errno 20] Not a directory: '" ++ pathToString orig ++ "'"⟩

/-- Embedding of `inp[key]` on the tool's input mapping: the value, or a `KeyError`
whose `str` is the quoted key. -/
def getItem (inp : List (String × String)) (key : String) : Except PyErr String :=
  match inp.find? (fun kv => kv.1 == key) with
  | some kv => .ok kv.2
  | none => .error ⟨.keyError, "'" ++ key ++ "'"⟩

/-- Scan for `str.replace` with a non-empty pattern `o :: os`: at each
position, a match emits the replacement and skips the matched region,
otherwise the character is kept. -/
def pyReplaceAux (o : Char) (os new : List Char) : List Char → List Char
  | [] => []
  | c :: rest =>
    if (o :: os).isPrefixOf (c :: rest) then
      new ++ pyReplaceAux o os new (rest.drop os.length)
    else
      c :: pyReplaceAux o os new rest
termination_by s => s.length
decreasing_by
  · simp only [List.length_cons, List.length_drop]
    omega
  · simp

/-- Python `str.replace(old, new)` on character lists: an empty pattern
matches at every position (the replacement lands before every character
and once at the end), a non-empty pattern is scanned left to right. -/
def pyReplaceData (s old new : List Char) : List Char :=
  match old with
  | [] => new ++ s.flatMap (fun ch => ch :: new)
  | o :: os => pyReplaceAux o os new s

def pyReplace (s old new : String) : String :=
  String.mk (pyReplaceData s.data old.data new.data)

/-- Embedding of `read_file` (tools.py:152-177). The utf-8 / latin-1
fallback never fails, so reading an existing regular file returns its
content. -/
def read_file (root : List String) (fs : Entry) (inp : List (String × String)) :
    Except PyErr String :=
  match getItem inp "path" with
  | .error e => .error e
  | .ok ps =>
    match _resolve_relative root ps with
    | .error e => .error e
    | .ok path =>
      match Entry.find? path fs with
      | none => .error ⟨.notFound, "No such file: " ++ pathToString path⟩
      | some (.dir _) =>
        .error ⟨.isADirectory, "Expected a file, found a directory: " ++ ps⟩
      | some (.file content) => .ok content

/-- Embedding of `edit_file` (tools.py:180-234): create a missing target
when `old_str` is empty (making parent directories if the parent is
missing), otherwise require an existing regular file and write back the
content with every occurrence of `old_str` replaced. Returns the
confirmation string and the updated filesystem. -/
def edit_file (root : List String) (fs : Entry) (inp : List (String × String)) :
    Except PyErr (String × Entry) :=
  match getItem inp "path" with
  | .error e => .error e
  | .ok ps =>
    match _resolve_relative root ps with
    | .error e => .error e
    | .ok path =>
      match getItem inp "old_str" with
      | .error e => .error e
      | .ok old_str =>
        match getItem inp "new_str" with
        | .error e => .error e
        | .ok new_str =>
          if (Entry.find? path fs).isNone && (old_str == "") then
            match
              (if (Entry.find? path.dropLast fs).isNone then
                mkdirParents path.dropLast path.dropLast fs
              else .ok fs) with
            | .error e => .error e
            | .ok fs1 =>
              match writeTextAux path path fs1 new_str with
              | .error e => .error e
              | .ok fs2 => .ok ("Created new file: " ++ ps, fs2)
          else
            match Entry.find? path fs with
            | none => .error ⟨.notFound, "No such file: " ++ pathToString path⟩
            | some (.dir _) =>
              .error ⟨.isADirectory, "Expected a file, found a directory: " ++ ps⟩
            | some (.file content) =>
              match writeTextAux path path fs (pyReplace content old_str new_str) with
              | .error e => .error e
              | .ok fs2 => .ok ("Successfully edited file: " ++ ps, fs2)

theorem find?_cons_dir (c : String) (rest : List String) (cs : List (String × Entry)) :
    Entry.find? (c :: rest) (.dir cs) =
      match cs.find? (fun kv => kv.1 == c) with
      | some kv => Entry.find? rest kv.2
      | none => none := rfl

theorem find?_assocSet (cs : List (String × Entry)) (c : String) (v : Entry) :
    (assocSet cs c v).find? (fun kv => kv.1 == c) = some (c, v) := by
  induction cs with
  | nil => simp [assocSet]
  | cons kv rest ih =>
    obtain ⟨n, x⟩ := kv
    by_cases h : n = c
    · simp [assocSet, h]
    · have hn : (n == c) = false := by simpa using h
      simp only [assocSet, hn, Bool.false_eq_true, if_false, List.find?]
      exact ih

theorem find?_append_single (cs : List (String × Entry)) (c : String) (v : Entry)
    (h : cs.find? (fun kv => kv.1 == c) = none) :
    (cs ++ [(c, v)]).find? (fun kv => kv.1 == c) = some (c, v) := by
  induction cs with
  | nil => simp
  | cons kv rest ih =>
    obtain ⟨n, x⟩ := kv
    simp only [List.find?, List.cons_append] at h ⊢
    cases hn : (n == c) with
    | true => simp [hn] at h
    | false =>
      simp only [hn] at h ⊢
      exact ih h

/-- A successful lookup forces every strict ancestor to be a directory. -/
theorem find?_some_dirs (p : List String) :
    ∀ (fs : Entry) (e : Entry), Entry.find? p fs = some e →
    ∀ k, k < p.length → ∃ cs, Entry.find? (p.take k) fs = some (.dir cs) := by
  induction p with
  | nil =>
    intro fs e _ k hk
    simp at hk
  | cons c rest ih =>
    intro fs e hfind k hk
    cases fs with
    | file content => simp [Entry.find?] at hfind
    | dir cs =>
      rw [find?_cons_dir] at hfind
      cases hchild : cs.find? (fun kv => kv.1 == c) with
      | none => simp [hchild] at hfind
      | some kv =>
        rw [hchild] at hfind
        cases k with
        | zero => exact ⟨cs, rfl⟩
        | succ j =>
          simp only [List.take_succ_cons]
          rw [find?_cons_dir, hchild]
          exact ih kv.2 e hfind j (by simpa using hk)

/-- Writing through existing directories to a non-directory target succeeds
and puts the file content at the target. -/
theorem writeText_ok (x : String) (p : List String) :
    ∀ (fs : Entry) (orig : List String),
    (∀ k, k < p.length → ∃ cs, Entry.find? (p.take k) fs = some (.dir cs)) →
    (∀ cs, Entry.find? p fs ≠ some (.dir cs)) →
    ∃ fs', writeTextAux orig p fs x = .ok fs' ∧ Entry.find? p fs' = some (.file x) := by
  induction p with
  | nil =>
    intro fs orig _ hfree
    cases fs with
    | dir cs => exact absurd rfl (hfree cs)
    | file content => exact ⟨.file x, rfl, rfl⟩
  | cons c rest ih =>
    intro fs orig hdirs hfree
    obtain ⟨cs, hcs⟩ := hdirs 0 (by simp)
    simp only [List.take_zero, Entry.find?, Option.some.injEq] at hcs
    subst hcs
    cases rest with
    | nil =>
      cases hchild : cs.find? (fun kv => kv.1 == c) with
      | some kv =>
        cases hkv : kv.2 with
        | dir cs' =>
          exfalso
          apply hfree cs'
          rw [find?_cons_dir, hchild, ← hkv]
          rfl
        | file content =>
          refine ⟨.dir (assocSet cs c (.file x)), ?_, ?_⟩
          · simp [writeTextAux, hchild, hkv]
          · rw [find?_cons_dir, find?_assocSet]
            rfl
      | none =>
        refine ⟨.dir (cs ++ [(c, .file x)]), ?_, ?_⟩
        · simp [writeTextAux, hchild]
        · rw [find?_cons_dir, find?_append_single cs c _ hchild]
          rfl
    | cons c2 rest' =>
      cases hchild : cs.find? (fun kv => kv.1 == c) with
      | some kv =>
        have hdirs' : ∀ k, k < (c2 :: rest').length →
            ∃ ds, Entry.find? ((c2 :: rest').take k) kv.2 = some (.dir ds) := by
          intro k hk
          have := hdirs (k + 1) (by simpa using hk)
          simp only [List.take_succ_cons] at this
          rwa [find?_cons_dir, hchild] at this
        have hfree' : ∀ ds, Entry.find? (c2 :: rest') kv.2 ≠ some (.dir ds) := by
          intro ds hds
          apply hfree ds
          rw [find?_cons_dir, hchild]
          exact hds
        obtain ⟨sub, hsub, hsubfind⟩ := ih kv.2 orig hdirs' hfree'
        refine ⟨.dir (assocSet cs c sub), ?_, ?_⟩
        · simp [writeTextAux, hchild, hsub]
        · rw [find?_cons_dir, find?_assocSet]
          exact hsubfind
      | none =>
        exfalso
        have := hdirs 1 (by simp)
        simp only [List.take_succ_cons, List.take_zero] at this
        obtain ⟨ds, hds⟩ := this
        rw [find?_cons_dir, hchild] at hds
        exact Option.noConfusion hds

/-- Lookup inside an empty directory: only the directory itself is found. -/
theorem find?_empty_dir (q : List String) (e : Entry)
    (h : Entry.find? q (.dir []) = some e) : q = [] ∧ e = .dir [] := by
  cases q with
  | nil =>
    simp only [Entry.find?, Option.some.injEq] at h
    exact ⟨rfl, h.symm⟩
  | cons c rest => simp [find?_cons_dir, List.find?] at h

/-- A `writeTextAux` failure with `IsADirectoryError` means the target
itself is a directory. -/
theorem writeText_err_isdir (x : String) (p : List String) :
    ∀ (fs : Entry) (orig : List String) (e : PyErr),
    writeTextAux orig p fs x = .error e → e.kind = .isADirectory →
    ∃ cs, Entry.find? p fs = some (.dir cs) := by
  induction p with
  | nil =>
    intro fs orig e herr _
    cases fs with
    | dir cs => exact ⟨cs, rfl⟩
    | file content => simp [writeTextAux] at herr
  | cons c rest ih =>
    intro fs orig e herr hkind
    cases fs with
    | file content =>
      cases rest <;> simp [writeTextAux] at herr <;>
        (subst herr; simp at hkind)
    | dir cs =>
      cases rest with
      | nil =>
        cases hchild : cs.find? (fun kv => kv.1 == c) with
        | some kv =>
          cases hkv : kv.2 with
          | dir cs' =>
            refine ⟨cs', ?_⟩
            rw [find?_cons_dir, hchild, ← hkv]
            rfl
          | file content => simp [writeTextAux, hchild, hkv] at herr
        | none => simp [writeTextAux, hchild] at herr
      | cons c2 rest' =>
        cases hchild : cs.find? (fun kv => kv.1 == c) with
        | some kv =>
          cases hrec : writeTextAux orig (c2 :: rest') kv.2 x with
          | ok sub => simp [writeTextAux, hchild, hrec] at herr
          | error e' =>
            have he : e = e' := by
              simp [writeTextAux, hchild, hrec] at herr
              exact herr.symm
            subst he
            obtain ⟨ds, hds⟩ := ih kv.2 orig e hrec hkind
            refine ⟨ds, ?_⟩
            rw [find?_cons_dir, hchild]
            exact hds
        | none =>
          simp [writeTextAux, hchild] at herr
          subst herr
          simp at hkind

/-- A `writeTextAux` failure with `FileNotFoundError` means the parent
directory chain is broken. -/
theorem writeText_err_notfound (x : String) (p : List String) :
    ∀ (fs : Entry) (orig : List String) (e : PyErr),
    writeTextAux orig p fs x = .error e → e.kind = .notFound →
    Entry.find? p.dropLast fs = none := by
  induction p with
  | nil =>
    intro fs orig e herr hkind
    cases fs with
    | dir cs =>
      simp [writeTextAux] at herr
      subst herr
      simp at hkind
    | file content => simp [writeTextAux] at herr
  | cons c rest ih =>
    intro fs orig e herr hkind
    cases fs with
    | file content =>
      cases rest <;> simp [writeTextAux] at herr <;>
        (subst herr; simp at hkind)
    | dir cs =>
      cases rest with
      | nil =>
        cases hchild : cs.find? (fun kv => kv.1 == c) with
        | some kv =>
          cases hkv : kv.2 with
          | dir cs' =>
            simp [writeTextAux, hchild, hkv] at herr
            subst herr
            simp at hkind
          | file content => simp [writeTextAux, hchild, hkv] at herr
        | none => simp [writeTextAux, hchild] at herr
      | cons c2 rest' =>
        cases hchild : cs.find? (fun kv => kv.1 == c) with
        | some kv =>
          cases hrec : writeTextAux orig (c2 :: rest') kv.2 x with
          | ok sub => simp [writeTextAux, hchild, hrec] at herr
          | error e' =>
            have he : e = e' := by
              simp [writeTextAux, hchild, hrec] at herr
              exact herr.symm
            subst he
            have := ih kv.2 orig e hrec hkind
            show Entry.find? (c :: (c2 :: rest').dropLast) (.dir cs) = none
            rw [find?_cons_dir, hchild]
            exact this
        | none =>
          show Entry.find? (c :: (c2 :: rest').dropLast) (.dir cs) = none
          rw [find?_cons_dir, hchild]

/-- Failures of `mkdirParents` are `NotADirectoryError` or `FileExistsError`. -/
theorem mkdir_err_kind (p : List String) :
    ∀ (fs : Entry) (orig : List String) (e : PyErr),
    mkdirParents orig p fs = .error e →
    e.kind = .notADirectory ∨ e.kind = .fileExists := by
  induction p with
  | nil =>
    intro fs orig e herr
    cases fs with
    | dir cs => simp [mkdirParents] at herr
    | file content =>
      simp [mkdirParents] at herr
      subst herr
      exact Or.inr rfl
  | cons c rest ih =>
    intro fs orig e herr
    cases fs with
    | file content =>
      simp [mkdirParents] at herr
      subst herr
      exact Or.inl rfl
    | dir cs =>
      cases hchild : cs.find? (fun kv => kv.1 == c) with
      | some kv =>
        cases hrec : mkdirParents orig rest kv.2 with
        | ok sub => simp [mkdirParents, hchild, hrec] at herr
        | error e' =>
          have he : e = e' := by
            simp [mkdirParents, hchild, hrec] at herr
            exact herr.symm
          subst he
          exact ih kv.2 orig e hrec
      | none =>
        cases hrec : mkdirParents orig rest (.dir []) with
        | ok sub => simp [mkdirParents, hchild, hrec] at herr
        | error e' =>
          have he : e = e' := by
            simp [mkdirParents, hchild, hrec] at herr
            exact herr.symm
          subst he
          exact ih (.dir []) orig e hrec

/-- Creation via `mkdirParents` succeeds when no regular file sits on the chain. -/
theorem mkdir_ok_of (p : List String) :
    ∀ (fs : Entry) (orig : List String),
    (∀ k, k ≤ p.length → ∀ c, Entry.find? (p.take k) fs ≠ some (.file c)) →
    ∃ fs', mkdirParents orig p fs = .ok fs' := by
  induction p with
  | nil =>
    intro fs orig h
    cases fs with
    | dir cs => exact ⟨.dir cs, rfl⟩
    | file content => exact absurd rfl (h 0 (by simp) content)
  | cons c rest ih =>
    intro fs orig h
    cases fs with
    | file content => exact absurd rfl (h 0 (by simp) content)
    | dir cs =>
      cases hchild : cs.find? (fun kv => kv.1 == c) with
      | some kv =>
        have h' : ∀ k, k ≤ rest.length → ∀ d, Entry.find? (rest.take k) kv.2 ≠ some (.file d) := by
          intro k hk d hd
          apply h (k + 1) (by simpa using hk) d
          simp only [List.take_succ_cons]
          rw [find?_cons_dir, hchild]
          exact hd
        obtain ⟨sub, hsub⟩ := ih kv.2 orig h'
        exact ⟨.dir (assocSet cs c sub), by simp [mkdirParents, hchild, hsub]⟩
      | none =>
        have h' : ∀ k, k ≤ rest.length → ∀ d, Entry.find? (rest.take k) (Entry.dir []) ≠ some (.file d) := by
          intro k _ d hd
          obtain ⟨-, he⟩ := find?_empty_dir _ _ hd
          exact Entry.noConfusion he
        obtain ⟨sub, hsub⟩ := ih (.dir []) orig h'
        exact ⟨.dir (cs ++ [(c, sub)]), by simp [mkdirParents, hchild, hsub]⟩

/-- After a successful `mkdirParents`, the whole chain exists as
directories. -/
theorem mkdir_ok_dirs (p : List String) :
    ∀ (fs fs' : Entry) (orig : List String),
    mkdirParents orig p fs = .ok fs' →
    ∀ k, k ≤ p.length → ∃ cs, Entry.find? (p.take k) fs' = some (.dir cs) := by
  induction p with
  | nil =>
    intro fs fs' orig hok k hk
    cases fs with
    | dir cs =>
      simp only [mkdirParents, Except.ok.injEq] at hok
      subst hok
      have hk0 : k = 0 := Nat.le_zero.mp (by simpa using hk)
      subst hk0
      exact ⟨cs, rfl⟩
    | file content => simp [mkdirParents] at hok
  | cons c rest ih =>
    intro fs fs' orig hok k hk
    cases fs with
    | file content => simp [mkdirParents] at hok
    | dir cs =>
      cases hchild : cs.find? (fun kv => kv.1 == c) with
      | some kv =>
        cases hrec : mkdirParents orig rest kv.2 with
        | error e' => simp [mkdirParents, hchild, hrec] at hok
        | ok sub =>
          have hfs' : fs' = .dir (assocSet cs c sub) := by
            simp [mkdirParents, hchild, hrec] at hok
            exact hok.symm
          subst hfs'
          cases k with
          | zero => exact ⟨assocSet cs c sub, rfl⟩
          | succ j =>
            simp only [List.take_succ_cons]
            rw [find?_cons_dir, find?_assocSet]
            exact ih kv.2 sub orig hrec j (by simpa using hk)
      | none =>
        cases hrec : mkdirParents orig rest (.dir []) with
        | error e' => simp [mkdirParents, hchild, hrec] at hok
        | ok sub =>
          have hfs' : fs' = .dir (cs ++ [(c, sub)]) := by
            simp [mkdirParents, hchild, hrec] at hok
            exact hok.symm
          subst hfs'
          cases k with
          | zero => exact ⟨cs ++ [(c, sub)], rfl⟩
          | succ j =>
            simp only [List.take_succ_cons]
            rw [find?_cons_dir, find?_append_single cs c sub hchild]
            exact ih (.dir []) sub orig hrec j (by simpa using hk)

/-- A successful `mkdirParents` creates no entry strictly below its target:
a strict extension of the target that was absent stays absent. -/
theorem mkdir_preserve_none (p : List String) :
    ∀ (fs fs' : Entry) (orig ext : List String),
    mkdirParents orig p fs = .ok fs' → ext ≠ [] →
    Entry.find? (p ++ ext) fs = none → Entry.find? (p ++ ext) fs' = none := by
  induction p with
  | nil =>
    intro fs fs' orig ext hok _ hnone
    cases fs with
    | dir cs =>
      simp only [mkdirParents, Except.ok.injEq] at hok
      subst hok
      exact hnone
    | file content => simp [mkdirParents] at hok
  | cons c rest ih =>
    intro fs fs' orig ext hok hext hnone
    cases fs with
    | file content => simp [mkdirParents] at hok
    | dir cs =>
      cases hchild : cs.find? (fun kv => kv.1 == c) with
      | some kv =>
        cases hrec : mkdirParents orig rest kv.2 with
        | error e' => simp [mkdirParents, hchild, hrec] at hok
        | ok sub =>
          have hfs' : fs' = .dir (assocSet cs c sub) := by
            simp [mkdirParents, hchild, hrec] at hok
            exact hok.symm
          subst hfs'
          rw [List.cons_append, find?_cons_dir, hchild] at hnone
          rw [List.cons_append, find?_cons_dir, find?_assocSet]
          exact ih kv.2 sub orig ext hrec hext hnone
      | none =>
        cases hrec : mkdirParents orig rest (.dir []) with
        | error e' => simp [mkdirParents, hchild, hrec] at hok
        | ok sub =>
          have hfs' : fs' = .dir (cs ++ [(c, sub)]) := by
            simp [mkdirParents, hchild, hrec] at hok
            exact hok.symm
          subst hfs'
          rw [List.cons_append, find?_cons_dir, find?_append_single cs c sub hchild]
          apply ih (.dir []) sub orig ext hrec hext
          cases hre : rest ++ ext with
          | nil =>
            exact absurd (List.append_eq_nil.mp hre).2 hext
          | cons a as => rw [find?_cons_dir]; simp [List.find?]

/-- Replacement with a pattern that does not occur leaves the character
list unchanged. -/
theorem pyReplaceAux_no_occ (o : Char) (os new : List Char) :
    ∀ s, ¬ (o :: os) <:+: s → pyReplaceAux o os new s = s := by
  intro s
  induction s with
  | nil => intro _; simp [pyReplaceAux]
  | cons c rest ih =>
    intro h
    have hpre : ¬ (o :: os).isPrefixOf (c :: rest) = true := by
      intro hp
      exact h (List.IsPrefix.isInfix (List.isPrefixOf_iff_prefix.mp hp))
    simp only [pyReplaceAux]
    rw [if_neg hpre, ih (fun hinf => h (List.infix_cons hinf))]

/-- Zero-occurrence replacement is the identity on the content. -/
theorem pyReplace_eq_self (c old new : String) (h1 : old ≠ "")
    (h2 : ¬ old.data <:+: c.data) : pyReplace c old new = c := by
  unfold pyReplace pyReplaceData
  cases ho : old.data with
  | nil =>
    exfalso
    apply h1
    cases old
    simp at ho
    simp [ho]
  | cons o os =>
    rw [ho] at h2
    show String.mk (pyReplaceAux o os new.data c.data) = c
    rw [pyReplaceAux_no_occ o os new.data c.data h2]

theorem error_eq_kind {α : Type} (e : PyErr) (k : ErrKind) (m : String)
    (h : (Except.error e : Except PyErr α) = .error ⟨k, m⟩) : e.kind = k := by
  simp only [Except.error.injEq] at h
  rw [h]

theorem ok_no_error {α : Type} (a : α) (k : ErrKind) :
    ¬ ∃ m, (Except.ok a : Except PyErr α) = .error ⟨k, m⟩ := by
  rintro ⟨m, hm⟩
  exact Except.noConfusion hm

/-- C5: with a sandbox-accepted target, `edit_file` fails with `NotFound`
exactly when the target does not exist and `old_str` is non-empty, fails
with `IsADirectory` exactly when the target is an existing directory, and
on an existing regular file writes back the content with every occurrence
of `old_str` replaced by `new_str` and reports success — zero occurrences
included, in which case the written content equals the old content. -/
theorem c5_edit_file_semantics (root : List String) (fs : Entry)
    (inp : List (String × String)) (ps old_str new_str : String) (path : List String)
    (hp : getItem inp "path" = .ok ps)
    (ho : getItem inp "old_str" = .ok old_str)
    (hn : getItem inp "new_str" = .ok new_str)
    (hr : _resolve_relative root ps = .ok path) :
    ((∃ m, edit_file root fs inp = .error ⟨.notFound, m⟩) ↔
      (Entry.find? path fs = none ∧ old_str ≠ ""))
    ∧ ((∃ m, edit_file root fs inp = .error ⟨.isADirectory, m⟩) ↔
      (∃ cs, Entry.find? path fs = some (.dir cs)))
    ∧ (∀ c, Entry.find? path fs = some (.file c) →
      ∃ fs', edit_file root fs inp = .ok ("Successfully edited file: " ++ ps, fs')
        ∧ Entry.find? path fs' = some (.file (pyReplace c old_str new_str)))
    ∧ (∀ c other : String, old_str ≠ "" → ¬ old_str.data <:+: c.data →
      pyReplace c old_str other = c) := by
  refine ?_
  by_cases hnone : Entry.find? path fs = none
  · by_cases hold : old_str = ""
    · subst hold
      have hne : path ≠ [] := by
        intro hpe
        subst hpe
        simp [Entry.find?] at hnone
      have hfull : path.dropLast ++ [path.getLast hne] = path :=
        List.dropLast_append_getLast hne
      have hnotdir : ∀ e, edit_file root fs inp = .error e →
          e.kind ≠ .notFound ∧ e.kind ≠ .isADirectory := by
        intro e herr
        by_cases hpar : (Entry.find? path.dropLast fs).isNone
        · cases hmk : mkdirParents path.dropLast path.dropLast fs with
          | error e' =>
            have : e = e' := by
              simp [edit_file, hp, hr, ho, hn, hnone, hpar, hmk] at herr
              exact herr.symm
            subst this
            rcases mkdir_err_kind path.dropLast fs path.dropLast e hmk with h | h <;>
              simp [h]
          | ok fs1 =>
            cases hw : writeTextAux path path fs1 new_str with
            | ok fs2 => simp [edit_file, hp, hr, ho, hn, hnone, hpar, hmk, hw] at herr
            | error e' =>
              have : e = e' := by
                simp [edit_file, hp, hr, ho, hn, hnone, hpar, hmk, hw] at herr
                exact herr.symm
              subst this
              constructor
              · intro hk
                have := writeText_err_notfound new_str path fs1 path e hw hk
                obtain ⟨cs, hcs⟩ := mkdir_ok_dirs path.dropLast fs fs1 path.dropLast hmk
                  path.dropLast.length (le_refl _)
                rw [List.take_length] at hcs
                rw [this] at hcs
                exact Option.noConfusion hcs
              · intro hk
                obtain ⟨cs, hcs⟩ := writeText_err_isdir new_str path fs1 path e hw hk
                have hpres : Entry.find? path fs1 = none := by
                  rw [← hfull]
                  apply mkdir_preserve_none path.dropLast fs fs1 path.dropLast
                    [path.getLast hne] hmk (by simp)
                  rw [hfull]
                  exact hnone
                rw [hpres] at hcs
                exact Option.noConfusion hcs
        · cases hw : writeTextAux path path fs new_str with
          | ok fs2 => simp [edit_file, hp, hr, ho, hn, hnone, hpar, hw] at herr
          | error e' =>
            have : e = e' := by
              simp [edit_file, hp, hr, ho, hn, hnone, hpar, hw] at herr
              exact herr.symm
            subst this
            constructor
            · intro hk
              have := writeText_err_notfound new_str path fs path e hw hk
              rw [this] at hpar
              simp at hpar
            · intro hk
              obtain ⟨cs, hcs⟩ := writeText_err_isdir new_str path fs path e hw hk
              rw [hnone] at hcs
              exact Option.noConfusion hcs
      refine ⟨?_, ?_, ?_, ?_⟩
      · constructor
        · rintro ⟨m, hm⟩
          cases he : edit_file root fs inp with
          | ok a => rw [he] at hm; exact Except.noConfusion hm
          | error e =>
            rw [he] at hm
            exact absurd (error_eq_kind e .notFound m hm) (hnotdir e he).1
        · rintro ⟨-, hcontra⟩
          exact absurd rfl hcontra
      · constructor
        · rintro ⟨m, hm⟩
          cases he : edit_file root fs inp with
          | ok a => rw [he] at hm; exact Except.noConfusion hm
          | error e =>
            rw [he] at hm
            exact absurd (error_eq_kind e .isADirectory m hm) (hnotdir e he).2
        · rintro ⟨cs, hcs⟩
          rw [hnone] at hcs
          exact Option.noConfusion hcs
      · intro c hc
        rw [hnone] at hc
        exact Option.noConfusion hc
      · intro c other h1 _
        exact absurd rfl h1
    · -- target missing and old_str non-empty: the NotFound raise
      have hcond : ((Entry.find? path fs).isNone && (old_str == "")) = false := by
        rw [hnone]
        simp [hold]
      have hres : edit_file root fs inp =
          .error ⟨.notFound, "No such file: " ++ pathToString path⟩ := by
        simp [edit_file, hp, hr, ho, hn, hnone, hold]
      refine ⟨?_, ?_, ?_, ?_⟩
      · exact iff_of_true ⟨_, hres⟩ ⟨hnone, hold⟩
      · constructor
        · rintro ⟨m, hm⟩
          rw [hres] at hm
          have := error_eq_kind _ .isADirectory m hm
          simp at this
        · rintro ⟨cs, hcs⟩
          rw [hnone] at hcs
          exact Option.noConfusion hcs
      · intro c hc
        rw [hnone] at hc
        exact Option.noConfusion hc
      · intro c other h1 h2
        exact pyReplace_eq_self c old_str other h1 h2
  · -- the target exists
    obtain ⟨en, hfind⟩ : ∃ en, Entry.find? path fs = some en := by
      cases hfd : Entry.find? path fs with
      | none => exact absurd hfd hnone
      | some en => exact ⟨en, rfl⟩
    have hcond : ((Entry.find? path fs).isNone && (old_str == "")) = false := by
      rw [hfind]
      simp
    cases hen : en with
      | dir cs =>
        rw [hen] at hfind
        have hres : edit_file root fs inp =
            .error ⟨.isADirectory, "Expected a file, found a directory: " ++ ps⟩ := by
          simp [edit_file, hp, hr, ho, hn, hcond, hfind]
        refine ⟨?_, ?_, ?_, ?_⟩
        · constructor
          · rintro ⟨m, hm⟩
            rw [hres] at hm
            have := error_eq_kind _ .notFound m hm
            simp at this
          · rintro ⟨hc, -⟩
            rw [hfind] at hc
            exact Option.noConfusion hc
        · exact iff_of_true ⟨_, hres⟩ ⟨cs, hfind⟩
        · intro c hc
          rw [hfind] at hc
          simp at hc
        · intro c other h1 h2
          exact pyReplace_eq_self c old_str other h1 h2
      | file content =>
        rw [hen] at hfind
        have hdirs : ∀ k, k < path.length →
            ∃ cs, Entry.find? (path.take k) fs = some (.dir cs) :=
          find?_some_dirs path fs (.file content) hfind
        have hfree : ∀ cs, Entry.find? path fs ≠ some (.dir cs) := by
          intro cs hcs
          rw [hfind] at hcs
          simp at hcs
        obtain ⟨fs', hw, hwfind⟩ :=
          writeText_ok (pyReplace content old_str new_str) path fs path hdirs hfree
        have hres : edit_file root fs inp =
            .ok ("Successfully edited file: " ++ ps, fs') := by
          simp [edit_file, hp, hr, ho, hn, hcond, hfind, hw]
        refine ⟨?_, ?_, ?_, ?_⟩
        · constructor
          · rintro ⟨m, hm⟩
            rw [hres] at hm
            exact Except.noConfusion hm
          · rintro ⟨hc, -⟩
            rw [hfind] at hc
            exact Option.noConfusion hc
        · constructor
          · rintro ⟨m, hm⟩
            rw [hres] at hm
            exact Except.noConfusion hm
          · rintro ⟨cs, hcs⟩
            rw [hfind] at hcs
            simp at hcs
        · intro c hc
          rw [hfind] at hc
          simp only [Option.some.injEq, Entry.file.injEq] at hc
          subst hc
          exact ⟨fs', hres, hwfind⟩
        · intro c other h1 h2
          exact pyReplace_eq_self c old_str other h1 h2

/-- C5 witness: editing an existing file `/r/f.txt` containing `"ab"`. -/
theorem c5_edit_file_semantics_witness :
    ∃ fs', edit_file ["r"] (Entry.dir [("r", .dir [("f.txt", .file "ab")])])
        [("path", "f.txt"), ("old_str", "a"), ("new_str", "X")]
      = .ok ("Successfully edited file: " ++ "f.txt", fs')
      ∧ Entry.find? ["r", "f.txt"] fs' = some (.file (pyReplace "ab" "a" "X")) :=
  (c5_edit_file_semantics ["r"] (Entry.dir [("r", .dir [("f.txt", .file "ab")])])
    [("path", "f.txt"), ("old_str", "a"), ("new_str", "X")]
    "f.txt" "a" "X" ["r", "f.txt"] rfl rfl rfl (by decide)).2.2.1 "ab" rfl

/-- C6 counterexample: the target `/r/a/b` does not exist, yet
`edit_file(path="a/b", old_str="", new_str=X)` does not create it — the
existing regular file `/r/a` makes the write raise `NotADirectoryError`. -/
theorem c6_counterexample :
    Entry.find? ["r", "a", "b"] (Entry.dir [("r", .dir [("a", .file "oops")])]) = none
    ∧ edit_file ["r"] (Entry.dir [("r", .dir [("a", .file "oops")])])
        [("path", "a/b"), ("old_str", ""), ("new_str", "X")]
      = .error ⟨.notADirectory, "[Errno 20] Not a directory: '/r/a/b'"⟩ :=
  ⟨rfl, rfl⟩

/-- C6 (amended): when the sandbox accepts the path, the target does not
exist, and no existing ancestor of the target is a regular file,
`edit_file` with empty `old_str` creates the file (making missing parent
directories) with `new_str` as its full content, and a subsequent
`read_file` of the same path returns that content exactly. -/
theorem c6_create_roundtrip (root : List String) (fs : Entry)
    (inp : List (String × String)) (ps X : String) (path : List String)
    (hp : getItem inp "path" = .ok ps)
    (ho : getItem inp "old_str" = .ok "")
    (hn : getItem inp "new_str" = .ok X)
    (hr : _resolve_relative root ps = .ok path)
    (hnone : Entry.find? path fs = none)
    (hanc : ∀ k, k < path.length → ∀ c, Entry.find? (path.take k) fs ≠ some (.file c)) :
    ∃ fs', edit_file root fs inp = .ok ("Created new file: " ++ ps, fs')
      ∧ read_file root fs' [("path", ps)] = .ok X := by
  have hne : path ≠ [] := by
    intro hpe
    subst hpe
    simp [Entry.find?] at hnone
  have hlen : 0 < path.length := List.length_pos.mpr hne
  have hfull : path.dropLast ++ [path.getLast hne] = path :=
    List.dropLast_append_getLast hne
  have htake : ∀ k, k ≤ path.dropLast.length → path.dropLast.take k = path.take k := by
    intro k hk
    rw [List.dropLast_eq_take, List.take_take]
    congr 1
    simp only [List.length_dropLast] at hk
    omega
  have hread : ∀ fs2 : Entry, Entry.find? path fs2 = some (.file X) →
      read_file root fs2 [("path", ps)] = .ok X := by
    intro fs2 hf
    have hget : getItem [("path", ps)] "path" = .ok ps := rfl
    simp [read_file, hget, hr, hf]
  by_cases hpar : (Entry.find? path.dropLast fs).isNone
  · obtain ⟨fs1, hmk⟩ := mkdir_ok_of path.dropLast fs path.dropLast (by
      intro k hk c hc
      have hk' : k < path.length := by
        simp only [List.length_dropLast] at hk
        omega
      rw [htake k hk] at hc
      exact hanc k hk' c hc)
    have hnone1 : Entry.find? path fs1 = none := by
      rw [← hfull]
      apply mkdir_preserve_none path.dropLast fs fs1 path.dropLast
        [path.getLast hne] hmk (by simp)
      rw [hfull]
      exact hnone
    have hdirs : ∀ k, k < path.length →
        ∃ cs, Entry.find? (path.take k) fs1 = some (.dir cs) := by
      intro k hk
      have hk' : k ≤ path.dropLast.length := by
        simp only [List.length_dropLast]
        omega
      have := mkdir_ok_dirs path.dropLast fs fs1 path.dropLast hmk k hk'
      rwa [htake k hk'] at this
    obtain ⟨fs2, hw, hwf⟩ := writeText_ok X path fs1 path hdirs (by
      intro cs hcs
      rw [hnone1] at hcs
      exact Option.noConfusion hcs)
    refine ⟨fs2, ?_, hread fs2 hwf⟩
    simp [edit_file, hp, hr, ho, hn, hnone, hpar, hmk, hw]
  · obtain ⟨pe, hpe⟩ : ∃ pe, Entry.find? path.dropLast fs = some pe := by
      cases hfd : Entry.find? path.dropLast fs with
      | none => rw [hfd] at hpar; simp at hpar
      | some pe => exact ⟨pe, rfl⟩
    have hdirs : ∀ k, k < path.length →
        ∃ cs, Entry.find? (path.take k) fs = some (.dir cs) := by
      intro k hk
      have hk' : k ≤ path.dropLast.length := by
        simp only [List.length_dropLast]
        omega
      rcases Nat.lt_or_ge k path.dropLast.length with hlt | hge
      · have := find?_some_dirs path.dropLast fs pe hpe k hlt
        rwa [htake k hk'] at this
      · have hkeq : k = path.dropLast.length := le_antisymm hk' hge
        subst hkeq
        have hte : path.take path.dropLast.length = path.dropLast := by
          have h0 := htake path.dropLast.length (le_refl _)
          rw [List.take_length] at h0
          exact h0.symm
        rw [hte]
        cases pe with
        | file c =>
          exfalso
          apply hanc path.dropLast.length (by simp only [List.length_dropLast]; omega) c
          rw [hte]
          exact hpe
        | dir cs => exact ⟨cs, hpe⟩
    obtain ⟨fs2, hw, hwf⟩ := writeText_ok X path fs path hdirs (by
      intro cs hcs
      rw [hnone] at hcs
      exact Option.noConfusion hcs)
    refine ⟨fs2, ?_, hread fs2 hwf⟩
    simp [edit_file, hp, hr, ho, hn, hnone, hpar, hw]

/-- C6 witness: creating `/r/new.txt` with content `"hi"` inside an empty
project and reading it back. -/
theorem c6_create_roundtrip_witness :
    ∃ fs', edit_file ["r"] (Entry.dir [("r", .dir [])])
        [("path", "new.txt"), ("old_str", ""), ("new_str", "hi")]
      = .ok ("Created new file: " ++ "new.txt", fs')
      ∧ read_file ["r"] fs' [("path", "new.txt")] = .ok "hi" :=
  c6_create_roundtrip ["r"] (Entry.dir [("r", .dir [])])
    [("path", "new.txt"), ("old_str", ""), ("new_str", "hi")]
    "new.txt" "hi" ["r", "new.txt"] rfl rfl rfl (by decide) rfl
    (by
      intro k hk c
      have hk2 : k < 2 := by simpa using hk
      interval_cases k <;> simp [Entry.find?, List.find?])

/-- C9: on an existing regular file, `edit_file` with empty `old_str` takes
the edit branch (not the create branch) and succeeds; empty-pattern
replacement puts `new_str` before every character of the old content and
once at the end. -/
theorem c9_edit_file_empty_old (root : List String) (fs : Entry)
    (inp : List (String × String)) (ps X c : String) (path : List String)
    (hp : getItem inp "path" = .ok ps)
    (ho : getItem inp "old_str" = .ok "")
    (hn : getItem inp "new_str" = .ok X)
    (hr : _resolve_relative root ps = .ok path)
    (hfile : Entry.find? path fs = some (.file c)) :
    ∃ fs', edit_file root fs inp = .ok ("Successfully edited file: " ++ ps, fs')
      ∧ Entry.find? path fs' =
        some (.file (String.mk (X.data ++ c.data.flatMap (fun ch => ch :: X.data)))) := by
  have hdirs : ∀ k, k < path.length →
      ∃ cs, Entry.find? (path.take k) fs = some (.dir cs) :=
    find?_some_dirs path fs (.file c) hfile
  have hfree : ∀ cs, Entry.find? path fs ≠ some (.dir cs) := by
    intro cs hcs
    rw [hfile] at hcs
    simp at hcs
  obtain ⟨fs', hw, hwf⟩ := writeText_ok (pyReplace c "" X) path fs path hdirs hfree
  refine ⟨fs', ?_, ?_⟩
  · simp [edit_file, hp, hr, ho, hn, hfile, hw]
  · exact hwf

/-- C9 witness: rewriting `/r/f` containing `"ab"` with
`old_str = ""`, `new_str = "X"` yields `"XaXbX"`. -/
theorem c9_edit_file_empty_old_witness :
    ∃ fs', edit_file ["r"] (Entry.dir [("r", .dir [("f", .file "ab")])])
        [("path", "f"), ("old_str", ""), ("new_str", "X")]
      = .ok ("Successfully edited file: " ++ "f", fs')
      ∧ Entry.find? ["r", "f"] fs' =
        some (.file (String.mk ("X".data ++ "ab".data.flatMap (fun ch => ch :: "X".data)))) :=
  c9_edit_file_empty_old ["r"] (Entry.dir [("r", .dir [("f", .file "ab")])])
    [("path", "f"), ("old_str", ""), ("new_str", "X")]
    "f" "X" "ab" ["r", "f"] rfl rfl rfl (by decide) rfl

/-- Python string comparison: lexicographic by code point. -/
def lexLe : List Char → List Char → Bool
  | [], _ => true
  | _ :: _, [] => false
  | a :: as, b :: bs => if a = b then lexLe as bs else decide (a < b)

/-- The order `sorted()` uses on the returned relative path strings. -/
def pyStrLe (a b : String) : Prop :=
  lexLe a.data b.data = true

instance : DecidableRel pyStrLe := fun a b => by
  unfold pyStrLe
  infer_instance

theorem lexLe_total (a : List Char) : ∀ b, lexLe a b = true ∨ lexLe b a = true := by
  induction a with
  | nil => intro b; left; rfl
  | cons x xs ih =>
    intro b
    cases b with
    | nil => right; rfl
    | cons y ys =>
      by_cases hxy : x = y
      · subst hxy
        rcases ih ys with h | h
        · left; simp [lexLe, h]
        · right; simp [lexLe, h]
      · rcases lt_or_gt_of_ne hxy with h | h
        · left; simp [lexLe, hxy, h]
        · right
          simp [lexLe, Ne.symm hxy, h]

theorem lexLe_trans (a : List Char) :
    ∀ b c, lexLe a b = true → lexLe b c = true → lexLe a c = true := by
  induction a with
  | nil => intro b c _ _; rfl
  | cons x xs ih =>
    intro b c hab hbc
    cases b with
    | nil => simp [lexLe] at hab
    | cons y ys =>
      cases c with
      | nil => simp [lexLe] at hbc
      | cons z zs =>
        by_cases hxy : x = y <;> by_cases hyz : y = z
        · subst hxy; subst hyz
          simp only [lexLe, if_pos rfl] at hab hbc ⊢
          exact ih ys zs hab hbc
        · subst hxy
          simp only [lexLe, if_neg hyz] at hbc
          simp only [lexLe, if_neg hyz]
          exact hbc
        · subst hyz
          simp only [lexLe, if_neg hxy] at hab
          simp only [lexLe, if_neg hxy]
          exact hab
        · simp only [lexLe, if_neg hxy] at hab
          simp only [lexLe, if_neg hyz] at hbc
          have hxz : x < z := lt_trans (of_decide_eq_true hab) (of_decide_eq_true hbc)
          simp [lexLe, ne_of_lt hxz, hxz]

theorem lexLe_antisymm (a : List Char) :
    ∀ b, lexLe a b = true → lexLe b a = true → a = b := by
  induction a with
  | nil =>
    intro b _ hba
    cases b with
    | nil => rfl
    | cons y ys => simp [lexLe] at hba
  | cons x xs ih =>
    intro b hab hba
    cases b with
    | nil => simp [lexLe] at hab
    | cons y ys =>
      by_cases hxy : x = y
      · subst hxy
        simp only [lexLe, if_pos rfl] at hab hba
        rw [ih ys hab hba]
      · simp only [lexLe, if_neg hxy] at hab
        simp only [lexLe, if_neg (Ne.symm hxy)] at hba
        exact absurd (of_decide_eq_true hba) (not_lt_of_lt (of_decide_eq_true hab))

instance : IsTotal String pyStrLe :=
  ⟨fun a b => lexLe_total a.data b.data⟩

instance : IsTrans String pyStrLe :=
  ⟨fun a b c => lexLe_trans a.data b.data c.data⟩

instance : IsAntisymm String pyStrLe :=
  ⟨fun a b hab hba => by
    have h := lexLe_antisymm a.data b.data hab hba
    cases a
    cases b
    exact congrArg String.mk h⟩

/-- Joining strings with a separator (used for the JSON array body). -/
def joinSep (sep : String) : List String → String
  | [] => ""
  | [x] => x
  | x :: rest => x ++ sep ++ joinSep sep rest

def hexDigit (n : Nat) : Char :=
  if n < 10 then Char.ofNat (48 + n) else Char.ofNat (87 + n)

def hex4 (n : Nat) : String :=
  String.mk [hexDigit (n / 4096 % 16), hexDigit (n / 256 % 16),
    hexDigit (n / 16 % 16), hexDigit (n % 16)]

/-- Escaping of one character by `json.dumps` (default `ensure_ascii=True`). -/
def pyJsonEscapeChar (c : Char) : String :=
  if c = '"' then "\\\""
  else if c = '\\' then "\\\\"
  else if c = '\n' then "\\n"
  else if c = '\t' then "\\t"
  else if c = '\r' then "\\r"
  else if c.toNat = 8 then "\\b"
  else if c.toNat = 12 then "\\f"
  else if c.toNat < 32 || c.toNat > 126 then
    if c.toNat ≤ 65535 then "\\u" ++ hex4 c.toNat
    else
      "\\u" ++ hex4 (55296 + (c.toNat - 65536) / 1024)
        ++ "\\u" ++ hex4 (56320 + (c.toNat - 65536) % 1024)
  else String.mk [c]

def pyJsonStr (s : String) : String :=
  "\"" ++ joinSep "" (s.data.map pyJsonEscapeChar) ++ "\""

/-- Encoding `json.dumps` of a list of strings (default separators). -/
def jsonDumps (xs : List String) : String :=
  "[" ++ joinSep ", " (xs.map pyJsonStr) ++ "]"

/-- Embedding of `dict.get(key, default)` on a tool input mapping. -/
def dictGet (inp : List (String × String)) (key dflt : String) : String :=
  match inp.find? (fun kv => kv.1 == key) with
  | some kv => kv.2
  | none => dflt

/-- Embedding of `Path(s).resolve()` with no sandbox check: relative strings resolve
against the current working directory, absolute strings against the
filesystem root, in both cases with `..`/`.` normalization. -/
def pyResolve (cwd : List String) (s : String) : List String :=
  if isAbsolutePath s then normComps (parseRel s) else normComps (cwd ++ parseRel s)

/-- One directory level of the `os.walk` loop in `list_files`
(tools.py:126-147): the surviving entries of this level, in `files + dirs`
order, after the in-place pruning of ignored directories and the per-entry
ignore filter. `pre` is the relative component path of the level. -/
def walkHere (ign : String → Bool) (pre : List String) (cs : List (String × Entry)) :
    List (List String × Bool) :=
  ((cs.filter fun kv => !kv.2.isDir) ++
    (cs.filter fun kv => kv.2.isDir && !(ign (joinComps (pre ++ [kv.1]) ++ "/")))).filterMap
    (fun kv =>
      if ign (joinComps (pre ++ [kv.1])) then none
      else some (pre ++ [kv.1], kv.2.isDir))

/-- The whole pruned pre-order traversal of `list_files`: every reported
entry as its relative component path plus a directory flag. Pruned
directories are never descended into. -/
def walkEntries (ign : String → Bool) : List String → Entry → List (List String × Bool)
  | _, .file _ => []
  | pre, .dir cs =>
    walkHere ign pre cs ++
      (cs.filter (fun kv => kv.2.isDir && !(ign (joinComps (pre ++ [kv.1]) ++ "/")))).attach.flatMap
        (fun kv => walkEntries ign (pre ++ [kv.1.1]) kv.1.2)
termination_by _ e => sizeOf e
decreasing_by
  have h1 : kv.1 ∈ cs.filter (fun kv => kv.2.isDir && !(ign (joinComps (pre ++ [kv.1]) ++ "/"))) :=
    kv.2
  have h2 : kv.1 ∈ cs := List.mem_of_mem_filter h1
  have h3 := List.sizeOf_lt_of_mem h2
  have h4 : sizeOf kv.1.2 < sizeOf kv.1 := by
    obtain ⟨a, b⟩ := kv.1
    simp only [Prod.mk.sizeOf_spec]
    omega
  simp only [Entry.dir.sizeOf_spec]
  omega

/-- The reported string of a traversal entry: relative path joined with the
separator, directories suffixed with a trailing separator. -/
def joinEntry (x : List String × Bool) : String :=
  joinComps x.1 ++ (if x.2 then "/" else "")

/-- The sorted array `list_files` builds before JSON encoding. -/
def listFilesArray (fs : Entry) (cwd : List String) (ign : String → Bool)
    (inp : List (String × String)) : Except PyErr (List String) :=
  let base := pyResolve cwd (dictGet inp "path" ".")
  match Entry.find? base fs with
  | none => .error ⟨.notFound, "'" ++ pathToString base ++ "' does not exist"⟩
  | some (.file _) => .ok []
  | some (.dir cs) =>
    .ok (List.insertionSort pyStrLe ((walkEntries ign [] (.dir cs)).map joinEntry))

/-- Embedding of `list_files` (tools.py:100-149). The `pathspec` matcher
compiled by `_get_gitignore` from the ignore sources is the parameter
`ign`; the claims hold for every compiled rule set. -/
def list_files (fs : Entry) (cwd : List String) (ign : String → Bool)
    (inp : List (String × String)) : Except PyErr String :=
  (listFilesArray fs cwd ign inp).map jsonDumps

/-- Structural induction principle for filesystem trees. -/
theorem entry_induct (motive : Entry → Prop)
    (hf : ∀ c, motive (.file c))
    (hd : ∀ cs, (∀ kv ∈ cs, motive kv.2) → motive (.dir cs)) :
    ∀ e, motive e := fun e =>
  match e with
  | .file c => hf c
  | .dir cs => hd cs (fun kv hkv => entry_induct motive hf hd kv.2)
termination_by e => sizeOf e
decreasing_by
  have h3 := List.sizeOf_lt_of_mem hkv
  have h4 : sizeOf kv.2 < sizeOf kv := by
    obtain ⟨a, b⟩ := kv
    simp only [Prod.mk.sizeOf_spec]
    omega
  simp only [Entry.dir.sizeOf_spec]
  omega

/-- Real directory listings never repeat a name at one level. -/
inductive NodupNames : Entry → Prop where
  | file (c : String) : NodupNames (.file c)
  | dir (cs : List (String × Entry)) (hnd : (cs.map Prod.fst).Nodup)
      (hrec : ∀ kv, kv ∈ cs → NodupNames kv.2) : NodupNames (.dir cs)

/-- With distinct names, the scandir association lookup finds exactly the
listed child. -/
theorem find?_of_mem_nodup (cs : List (String × Entry)) (n : String) (e : Entry)
    (hnd : (cs.map Prod.fst).Nodup) (hmem : (n, e) ∈ cs) :
    cs.find? (fun kv => kv.1 == n) = some (n, e) := by
  induction cs with
  | nil => simp at hmem
  | cons kv rest ih =>
    obtain ⟨m, x⟩ := kv
    simp only [List.map_cons, List.nodup_cons] at hnd
    rcases List.mem_cons.mp hmem with heq | htail
    · obtain ⟨h1, h2⟩ := Prod.mk.injEq .. ▸ heq.symm
      subst h1
      subst h2
      simp [List.find?]
    · have hmn : m ≠ n := by
        intro hc
        subst hc
        exact hnd.1 (List.mem_map.mpr ⟨(m, e), htail, rfl⟩)
      simp only [List.find?]
      rw [show ((m, x).1 == n) = false by simpa using hmn]
      exact ih hnd.2 htail

/-- C8: `list_files` resolves its optional `path` (default `"."`) with
`Path.resolve` alone — no sandbox escape check, so absolute paths and paths
outside the project root are reachable; it fails, always and only with
`NotFound`, exactly when the resolved base does not exist, and returns the
empty JSON array when the base exists but is not a directory. -/
theorem c8_list_files_resolution (fs : Entry) (cwd : List String)
    (ign : String → Bool) (inp : List (String × String)) (base : List String)
    (hb : pyResolve cwd (dictGet inp "path" ".") = base) :
    ((∃ m, list_files fs cwd ign inp = .error ⟨.notFound, m⟩) ↔
      Entry.find? base fs = none)
    ∧ (∀ e, list_files fs cwd ign inp = .error e → e.kind = .notFound)
    ∧ (∀ c, Entry.find? base fs = some (.file c) →
      list_files fs cwd ign inp = .ok "[]") := by
  subst hb
  cases hfind : Entry.find? (pyResolve cwd (dictGet inp "path" ".")) fs with
  | none =>
    have hres : list_files fs cwd ign inp =
        .error ⟨.notFound,
          "'" ++ pathToString (pyResolve cwd (dictGet inp "path" ".")) ++ "' does not exist"⟩ := by
      simp [list_files, listFilesArray, hfind, Except.map]
    refine ⟨iff_of_true ⟨_, hres⟩ rfl, ?_, ?_⟩
    · intro e he
      rw [hres] at he
      simp only [Except.error.injEq] at he
      rw [← he]
    · intro c hc
      exact absurd hc (by simp)
  | some en =>
    cases en with
    | file c =>
      have hres : list_files fs cwd ign inp = .ok "[]" := by
        simp only [list_files, listFilesArray, hfind, Except.map]
        rfl
      refine ⟨?_, ?_, fun _ _ => hres⟩
      · constructor
        · rintro ⟨m, hm⟩
          rw [hres] at hm
          exact Except.noConfusion hm
        · intro hc
          exact Option.noConfusion hc
      · intro e he
        rw [hres] at he
        exact Except.noConfusion he
    | dir cs =>
      have hres : list_files fs cwd ign inp =
          .ok (jsonDumps (List.insertionSort pyStrLe
            ((walkEntries ign [] (.dir cs)).map joinEntry))) := by
        simp [list_files, listFilesArray, hfind, Except.map]
      refine ⟨?_, ?_, ?_⟩
      · constructor
        · rintro ⟨m, hm⟩
          rw [hres] at hm
          exact Except.noConfusion hm
        · intro hc
          exact Option.noConfusion hc
      · intro e he
        rw [hres] at he
        exact Except.noConfusion he
      · intro c hc
        simp at hc

/-- C8 witness: with the working directory `/r`, the absolute input
`"/out"` (outside the project root) reaches the regular file `/out`, and
the tool answers with the empty JSON array. -/
theorem c8_list_files_resolution_witness :
    list_files (Entry.dir [("out", .file "data"), ("r", .dir [])]) ["r"]
      (fun _ => false) [("path", "/out")] = .ok "[]" :=
  (c8_list_files_resolution (Entry.dir [("out", .file "data"), ("r", .dir [])])
    ["r"] (fun _ => false) [("path", "/out")] ["out"] (by decide)).2.2 "data" rfl

/-- What the pruned traversal guarantees for each reported entry: it lies
strictly below the traversal prefix and corresponds to a real filesystem
entry whose kind matches the directory flag; its own relative string is
unmatched; a directory entry also survived the slash-suffixed prune check;
and every strict ancestor below the prefix survived the prune check, so
ignored subtrees are never entered. -/
theorem walkEntries_spec (ign : String → Bool) (d : Entry) :
    ∀ (pre : List String), NodupNames d →
    ∀ x ∈ walkEntries ign pre d,
      (∃ suf e, suf ≠ [] ∧ x.1 = pre ++ suf
        ∧ Entry.find? suf d = some e ∧ e.isDir = x.2)
      ∧ ign (joinComps x.1) = false
      ∧ (x.2 = true → ign (joinComps x.1 ++ "/") = false)
      ∧ (∀ k, pre.length < k → k < x.1.length →
          ign (joinComps (x.1.take k) ++ "/") = false) := by
  induction d using entry_induct with
  | hf c =>
    intro pre _ x hx
    simp [walkEntries] at hx
  | hd cs ih =>
    intro pre hnodup x hx
    have hnd : (cs.map Prod.fst).Nodup := by
      cases hnodup with
      | dir _ hnd _ => exact hnd
    have hrec : ∀ kv, kv ∈ cs → NodupNames kv.2 := by
      cases hnodup with
      | dir _ _ hrec => exact hrec
    rw [walkEntries] at hx
    rcases List.mem_append.mp hx with hx | hx
    · -- this level
      simp only [walkHere, List.mem_filterMap, List.mem_append, List.mem_filter] at hx
      obtain ⟨kv, hkv, hout⟩ := hx
      have hkvcs : kv ∈ cs := by
        rcases hkv with ⟨h, -⟩ | ⟨h, -⟩ <;> exact h
      by_cases hig : ign (joinComps (pre ++ [kv.1])) = true
      · rw [if_pos hig] at hout
        exact Option.noConfusion hout
      · rw [if_neg hig] at hout
        have hxval : x = (pre ++ [kv.1], kv.2.isDir) := (Option.some.injEq .. ▸ hout).symm
        subst hxval
        have higf : ign (joinComps (pre ++ [kv.1])) = false :=
          Bool.not_eq_true _ ▸ hig
        refine ⟨⟨[kv.1], kv.2, by simp, rfl, ?_, rfl⟩, higf, ?_, ?_⟩
        · rw [find?_cons_dir, find?_of_mem_nodup cs kv.1 kv.2 hnd (by simpa using hkvcs)]
          rfl
        · intro hdirx
          rcases hkv with ⟨-, hfil⟩ | ⟨-, hfil⟩
          · exfalso
            have hdirx2 : kv.2.isDir = true := hdirx
            rw [hdirx2] at hfil
            simp at hfil
          · simp only [Bool.and_eq_true, Bool.not_eq_true'] at hfil
            exact hfil.2
        · intro k hk1 hk2
          simp only [List.length_append, List.length_cons, List.length_nil] at hk2
          omega
    · -- deeper levels
      simp only [List.mem_flatMap, List.mem_attach, true_and] at hx
      obtain ⟨⟨kv, hkvf⟩, hxin⟩ := hx
      simp only at hxin
      have hkvprops := List.mem_filter.mp hkvf
      have hkvcs : kv ∈ cs := hkvprops.1
      have hkvdir : kv.2.isDir = true := by
        have := hkvprops.2
        simp only [Bool.and_eq_true] at this
        exact this.1
      have hkvkeep : ign (joinComps (pre ++ [kv.1]) ++ "/") = false := by
        have := hkvprops.2
        simp only [Bool.and_eq_true, Bool.not_eq_true'] at this
        exact this.2
      obtain ⟨⟨suf', e, hsufne, hx1, hfind', hdir'⟩, hign, hslash, hanc⟩ :=
        ih kv hkvcs (pre ++ [kv.1]) (hrec kv hkvcs) x hxin
      refine ⟨⟨kv.1 :: suf', e, by simp, ?_, ?_, hdir'⟩, hign, hslash, ?_⟩
      · rw [hx1, List.append_assoc, List.singleton_append]
      · rw [find?_cons_dir, find?_of_mem_nodup cs kv.1 kv.2 hnd (by simpa using hkvcs)]
        exact hfind'
      · intro k hk1 hk2
        rcases Nat.lt_or_ge k (pre.length + 2) with hklt | hkge
        · have hkeq : k = pre.length + 1 := by omega
          subst hkeq
          have htk : x.1.take (pre.length + 1) = pre ++ [kv.1] := by
            rw [hx1]
            have hlen : (pre ++ [kv.1]).length = pre.length + 1 := by simp
            rw [← hlen, List.take_left]
          rw [htk]
          exact hkvkeep
        · apply hanc k (by simp; omega) hk2

/-- C4: on an existing directory, for every compiled ignore-rule set the
array built by `list_files` is sorted in Python's string order; every
element comes from the pruned traversal, so no element is matched by the
rule set (directory entries also pass the slash-suffixed prune check, and
carry the trailing separator exactly when the filesystem entry is a
directory); no reported entry sits below a pruned directory; and any
enumeration order of the same directory contents sorts to the identical
array. -/
theorem c4_list_files_ignore_sorted (fs : Entry) (cwd : List String)
    (ign : String → Bool) (inp : List (String × String)) (base : List String)
    (cs : List (String × Entry)) (arr : List String)
    (hb : pyResolve cwd (dictGet inp "path" ".") = base)
    (hdir : Entry.find? base fs = some (.dir cs))
    (hnodup : NodupNames (.dir cs))
    (harr : listFilesArray fs cwd ign inp = .ok arr) :
    List.Sorted pyStrLe arr
    ∧ (∀ s ∈ arr, ∃ x, x ∈ walkEntries ign [] (.dir cs) ∧ s = joinEntry x)
    ∧ (∀ x ∈ walkEntries ign [] (.dir cs),
        ign (joinComps x.1) = false
        ∧ (x.2 = true → ign (joinComps x.1 ++ "/") = false)
        ∧ (∀ k, 0 < k → k < x.1.length → ign (joinComps (x.1.take k) ++ "/") = false)
        ∧ (∃ e, Entry.find? x.1 (.dir cs) = some e ∧ e.isDir = x.2))
    ∧ (∀ ys, ys.Perm ((walkEntries ign [] (.dir cs)).map joinEntry) →
        List.insertionSort pyStrLe ys = arr) := by
  have harr2 : arr =
      List.insertionSort pyStrLe ((walkEntries ign [] (.dir cs)).map joinEntry) := by
    rw [listFilesArray, hb, hdir] at harr
    simp only [Except.ok.injEq] at harr
    exact harr.symm
  subst harr2
  refine ⟨List.sorted_insertionSort pyStrLe _, ?_, ?_, ?_⟩
  · intro s hs
    have hs2 : s ∈ (walkEntries ign [] (.dir cs)).map joinEntry :=
      (List.perm_insertionSort pyStrLe _).mem_iff.mp hs
    obtain ⟨x, hx, hsx⟩ := List.mem_map.mp hs2
    exact ⟨x, hx, hsx.symm⟩
  · intro x hx
    obtain ⟨⟨suf, e, hne, hx1, hfind, hisdir⟩, hign, hslash, hanc⟩ :=
      walkEntries_spec ign (.dir cs) [] hnodup x hx
    simp only [List.nil_append] at hx1
    subst hx1
    exact ⟨hign, hslash, fun k hk1 hk2 => hanc k hk1 hk2, ⟨e, hfind, hisdir⟩⟩
  · intro ys hperm
    refine List.eq_of_perm_of_sorted ?_
      (List.sorted_insertionSort pyStrLe ys) (List.sorted_insertionSort pyStrLe _)
    exact ((List.perm_insertionSort pyStrLe ys).trans hperm).trans
      (List.perm_insertionSort pyStrLe _).symm

/-- Concrete fixture: project directory `/r/a` with an ignored file, a kept
file, and an ignored subdirectory whose contents must not be visited. -/
def c4cs : List (String × Entry) :=
  [("b.txt", .file "x"), (".gitignore", .file "b.txt"), ("sub", .dir [("c", .file "y")])]

def c4fs : Entry :=
  .dir [("r", .dir [("a", .dir c4cs)])]

def c4ign (s : String) : Bool :=
  s == "b.txt" || s == "sub/"

theorem c4nodup : NodupNames (.dir c4cs) := by
  refine NodupNames.dir _ (by decide) ?_
  intro kv hkv
  simp only [c4cs, List.mem_cons, List.not_mem_nil, or_false] at hkv
  rcases hkv with rfl | rfl | rfl
  · exact NodupNames.file _
  · exact NodupNames.file _
  · refine NodupNames.dir _ (by decide) ?_
    intro kv2 hkv2
    simp only [List.mem_cons, List.not_mem_nil, or_false] at hkv2
    rcases hkv2 with rfl
    exact NodupNames.file _

/-- C4 witness: listing `/r/a` under the rule set `{b.txt, sub/}` yields
exactly `[".gitignore"]`. -/
theorem c4_list_files_ignore_sorted_witness :
    List.Sorted pyStrLe [".gitignore"]
    ∧ (∀ s ∈ ([".gitignore"] : List String),
        ∃ x, x ∈ walkEntries c4ign [] (.dir c4cs) ∧ s = joinEntry x)
    ∧ (∀ x ∈ walkEntries c4ign [] (.dir c4cs),
        c4ign (joinComps x.1) = false
        ∧ (x.2 = true → c4ign (joinComps x.1 ++ "/") = false)
        ∧ (∀ k, 0 < k → k < x.1.length → c4ign (joinComps (x.1.take k) ++ "/") = false)
        ∧ (∃ e, Entry.find? x.1 (.dir c4cs) = some e ∧ e.isDir = x.2))
    ∧ (∀ ys, ys.Perm ((walkEntries c4ign [] (.dir c4cs)).map joinEntry) →
        List.insertionSort pyStrLe ys = [".gitignore"]) :=
  c4_list_files_ignore_sorted c4fs ["r"] c4ign [("path", "a")] ["r", "a"] c4cs
    [".gitignore"] rfl rfl c4nodup (by
      have h1 : walkEntries c4ign [] (.dir c4cs) = [([".gitignore"], false)] := by
        simp [walkEntries, walkHere, c4cs, c4ign, joinComps, Entry.isDir]
      simp only [listFilesArray]
      rw [show Entry.find? (pyResolve ["r"] (dictGet [("path", "a")] "path" ".")) c4fs
        = some (Entry.dir c4cs) from rfl]
      show Except.ok (List.insertionSort pyStrLe
        (List.map joinEntry (walkEntries c4ign [] (Entry.dir c4cs)))) = Except.ok [".gitignore"]
      rw [h1]
      rfl)

/-- A `tool_use` content block as dispatched by `run_tool`. -/
structure ToolUseBlock where
  id : String
  name : String
  input : List (String × String)
  deriving Repr

/-- Values appearing in a `tool_result` mapping. -/
inductive RVal where
  | s (v : String)
  | b (v : Bool)
  deriving DecidableEq, Repr

/-- Registry dispatch over `TOOL_MAP` of the `coding_agent` package (tools.py:279-280):
the three registered handlers, looked up by name; `none` for unregistered
names. A handler either returns its output string together with the
filesystem it leaves behind, or raises. -/
def dispatchTool (cwd : List String) (ign : String → Bool) (fs : Entry)
    (name : String) (payload : List (String × String)) :
    Option (Except PyErr (String × Entry)) :=
  if name = "list_files" then
    some ((list_files fs cwd ign payload).map (fun out => (out, fs)))
  else if name = "read_file" then
    some ((read_file cwd fs payload).map (fun out => (out, fs)))
  else if name = "edit_file" then
    some (edit_file cwd fs payload)
  else none

/-- Embedding of `run_tool` (coding_agent/core.py:113-156): the returned
`tool_result` mapping in literal key order. Unknown names produce an
error result without calling any handler; a raised handler exception is
caught and its message becomes the error content; dispatch itself never
raises. -/
def run_tool (cwd : List String) (ign : String → Bool) (fs : Entry)
    (block : ToolUseBlock) : (List (String × RVal)) × Entry :=
  match dispatchTool cwd ign fs block.name block.input with
  | none =>
    ([("type", .s "tool_result"), ("tool_use_id", .s block.id),
      ("is_error", .b true), ("content", .s ("Unknown tool '" ++ block.name ++ "'"))], fs)
  | some (.ok (out, fs')) =>
    ([("type", .s "tool_result"), ("tool_use_id", .s block.id),
      ("content", .s out)], fs')
  | some (.error e) =>
    ([("type", .s "tool_result"), ("tool_use_id", .s block.id),
      ("is_error", .b true), ("content", .s e.msg)], fs)

/-- Registry `TOOL_MAP` of the `agent` package (agent/tools.py:146-147): only
`list_files` is registered. -/
def agentDispatchTool (cwd : List String) (ign : String → Bool) (fs : Entry)
    (name : String) (payload : List (String × String)) :
    Option (Except PyErr (String × Entry)) :=
  if name = "list_files" then
    some ((list_files fs cwd ign payload).map (fun out => (out, fs)))
  else none

/-- Embedding of `run_tool` (agent/core.py:83-114): identical structure,
but the two error results carry the message under the key `"error"`. -/
def agent_run_tool (cwd : List String) (ign : String → Bool) (fs : Entry)
    (block : ToolUseBlock) : (List (String × RVal)) × Entry :=
  match agentDispatchTool cwd ign fs block.name block.input with
  | none =>
    ([("type", .s "tool_result"), ("tool_use_id", .s block.id),
      ("is_error", .b true), ("error", .s ("Unknown tool '" ++ block.name ++ "'"))], fs)
  | some (.ok (out, fs')) =>
    ([("type", .s "tool_result"), ("tool_use_id", .s block.id),
      ("content", .s out)], fs')
  | some (.error e) =>
    ([("type", .s "tool_result"), ("tool_use_id", .s block.id),
      ("is_error", .b true), ("error", .s e.msg)], fs)

/-- C3: `run_tool` always returns a result (it is total, so no exception
escapes the dispatch boundary) whose `tool_use_id` is the block's id
verbatim; an unregistered name yields the `is_error` unknown-tool result
without touching the filesystem; a handler exception is converted into an
`is_error` result carrying the exception's message; a successful handler
call yields a result without an `is_error` key carrying the output. -/
theorem c3_run_tool_dispatch (cwd : List String) (ign : String → Bool)
    (fs : Entry) (block : ToolUseBlock) :
    ((run_tool cwd ign fs block).1.find? (fun kv => kv.1 == "tool_use_id")
      = some ("tool_use_id", .s block.id))
    ∧ (dispatchTool cwd ign fs block.name block.input = none →
      run_tool cwd ign fs block =
        ([("type", .s "tool_result"), ("tool_use_id", .s block.id),
          ("is_error", .b true),
          ("content", .s ("Unknown tool '" ++ block.name ++ "'"))], fs))
    ∧ (∀ e, dispatchTool cwd ign fs block.name block.input = some (.error e) →
      run_tool cwd ign fs block =
        ([("type", .s "tool_result"), ("tool_use_id", .s block.id),
          ("is_error", .b true), ("content", .s e.msg)], fs))
    ∧ (∀ out fs', dispatchTool cwd ign fs block.name block.input = some (.ok (out, fs')) →
      run_tool cwd ign fs block =
        ([("type", .s "tool_result"), ("tool_use_id", .s block.id),
          ("content", .s out)], fs')) := by
  refine ⟨?_, ?_, ?_, ?_⟩
  · cases hd : dispatchTool cwd ign fs block.name block.input with
    | none => simp [run_tool, hd, List.find?]
    | some r =>
      cases r with
      | ok p =>
        obtain ⟨out, fs'⟩ := p
        simp [run_tool, hd, List.find?]
      | error e => simp [run_tool, hd, List.find?]
  · intro hd
    simp [run_tool, hd]
  · intro e hd
    simp [run_tool, hd]
  · intro out fs' hd
    simp [run_tool, hd]

/-- C3 witness: an unregistered tool name. -/
theorem c3_run_tool_dispatch_witness :
    run_tool ["r"] (fun _ => false) (.dir []) ⟨"id1", "nope", []⟩ =
      ([("type", .s "tool_result"), ("tool_use_id", .s "id1"),
        ("is_error", .b true),
        ("content", .s ("Unknown tool '" ++ "nope" ++ "'"))], .dir []) :=
  (c3_run_tool_dispatch ["r"] (fun _ => false) (.dir []) ⟨"id1", "nope", []⟩).2.1 rfl

/-- C10 counterexample: on an unregistered name the two `run_tool`
implementations return different mappings — the `agent` variant stores the
message under the key `"error"`, the `coding_agent` variant under
`"content"`. -/
theorem c10_counterexample :
    (agent_run_tool ["r"] (fun _ => false) (.dir []) ⟨"t1", "nope", []⟩).1
      ≠ (run_tool ["r"] (fun _ => false) (.dir []) ⟨"t1", "nope", []⟩).1 := by
  decide

/-- C10 (amended): the two `run_tool` duplicates agree exactly on
successful dispatches of the one tool both register (`list_files`); they
diverge on every error result (key `"error"` versus `"content"`) and on
names registered only in `coding_agent`. -/
theorem c10_agree_on_success (cwd : List String) (ign : String → Bool)
    (fs : Entry) (block : ToolUseBlock) (out : String)
    (hname : block.name = "list_files")
    (hok : list_files fs cwd ign block.input = .ok out) :
    agent_run_tool cwd ign fs block = run_tool cwd ign fs block := by
  simp [agent_run_tool, run_tool, agentDispatchTool, dispatchTool, hname, hok, Except.map]

/-- C10 witness: both variants dispatch `list_files` on an existing
non-directory target and agree on the result. -/
theorem c10_agree_on_success_witness :
    agent_run_tool ["r"] (fun _ => false) (.dir [("d", .file "z")])
        ⟨"t2", "list_files", [("path", "/d")]⟩
      = run_tool ["r"] (fun _ => false) (.dir [("d", .file "z")])
        ⟨"t2", "list_files", [("path", "/d")]⟩ :=
  c10_agree_on_success ["r"] (fun _ => false) (.dir [("d", .file "z")])
    ⟨"t2", "list_files", [("path", "/d")]⟩ "[]" rfl rfl

/-- A content block of a model message. -/
inductive ContentBlock where
  | text (t : String)
  | toolUse (id name : String) (input : List (String × String))
  | toolResult (res : List (String × RVal))
  deriving Repr

/-- A conversation message: role plus ordered content blocks. -/
structure Message where
  role : String
  content : List ContentBlock
  deriving Repr

def ContentBlock.isToolUse : ContentBlock → Bool
  | .toolUse .. => true
  | _ => false

/-- Number of `tool_use` blocks in a message (each demands one dispatch and
one follow-up model call). -/
def toolUseCount (m : Message) : Nat :=
  (m.content.filter ContentBlock.isToolUse).length

def toolUseSum (ms : List Message) : Nat :=
  (ms.map toolUseCount).sum

/-- Result of the block pass over one popped message. -/
structure BlocksOut where
  fs : Entry
  conv : List Message
  enqueued : List Message
  rest : List Message
  disp : Nat
  exhausted : Bool

/-- The inner `for block in current.content` loop of `handle`
(core.py:97-110): text blocks are printed (no state change), each
`tool_use` block is dispatched, its `tool_result` appended to the
conversation as a `user` message immediately, and one follow-up model call
made — modelled as consuming the next message of the finite response
stream `rest`. `exhausted` records that a needed call had no response
left. -/
def processBlocks (cwd : List String) (ign : String → Bool) :
    Entry → List Message → List Message → List ContentBlock → BlocksOut
  | fs, conv, rest, [] => ⟨fs, conv, [], rest, 0, false⟩
  | fs, conv, rest, .text _ :: blocks => processBlocks cwd ign fs conv rest blocks
  | fs, conv, rest, .toolResult _ :: blocks => processBlocks cwd ign fs conv rest blocks
  | fs, conv, rest, .toolUse i n inpt :: blocks =>
    let r := run_tool cwd ign fs ⟨i, n, inpt⟩
    let conv2 := conv ++ [⟨"user", [.toolResult r.1]⟩]
    match rest with
    | [] => ⟨r.2, conv2, [], [], 1, true⟩
    | m :: rest2 =>
      let o := processBlocks cwd ign r.2 conv2 rest2 blocks
      ⟨o.fs, o.conv, m :: o.enqueued, o.rest, o.disp + 1, o.exhausted⟩

/-- The consumed responses plus the leftover stream never exceed the
stream handed in (needed for termination of the outer loop). -/
theorem processBlocks_budget (cwd : List String) (ign : String → Bool) :
    ∀ (blocks : List ContentBlock) (fs : Entry) (conv rest : List Message),
    (processBlocks cwd ign fs conv rest blocks).enqueued.length
      + (processBlocks cwd ign fs conv rest blocks).rest.length ≤ rest.length := by
  intro blocks
  induction blocks with
  | nil => intro fs conv rest; simp [processBlocks]
  | cons b blocks ih =>
    intro fs conv rest
    cases b with
    | text t => simpa [processBlocks] using ih fs conv rest
    | toolResult r => simpa [processBlocks] using ih fs conv rest
    | toolUse i n inpt =>
      cases rest with
      | nil => simp [processBlocks]
      | cons m rest2 =>
        have := ih (run_tool cwd ign fs ⟨i, n, inpt⟩).2
          (conv ++ [⟨"user", [.toolResult (run_tool cwd ign fs ⟨i, n, inpt⟩).1]⟩]) rest2
        simp only [processBlocks, List.length_cons]
        omega

/-- Result of the whole `while pending` loop. -/
structure HandleOut where
  fs : Entry
  conv : List Message
  rest : List Message
  disp : Nat
  exhausted : Bool
  pendingFinal : List Message

/-- The `while pending` loop of `handle` (core.py:91-110): pop the first
queued message, append it to the conversation (with the role of the
original `message` argument, as the code does), process its blocks, append
the follow-up responses to the queue, and repeat until the queue is
empty. -/
def handleLoop (cwd : List String) (ign : String → Bool) (origRole : String) :
    Entry → List Message → List Message → List Message → Nat → HandleOut
  | fs, conv, [], rest, disp => ⟨fs, conv, rest, disp, false, []⟩
  | fs, conv, cur :: pending, rest, disp =>
    let o := processBlocks cwd ign fs (conv ++ [⟨origRole, cur.content⟩]) rest cur.content
    if o.exhausted then
      ⟨o.fs, o.conv, o.rest, disp + o.disp, true, pending ++ o.enqueued⟩
    else
      handleLoop cwd ign origRole o.fs o.conv (pending ++ o.enqueued) o.rest (disp + o.disp)
termination_by _fs _conv pending rest _disp => pending.length + rest.length
decreasing_by
  have hb := processBlocks_budget cwd ign cur.content fs (conv ++ [⟨origRole, cur.content⟩]) rest
  simp only [List.length_append, List.length_cons]
  omega

/-- Embedding of `handle` (core.py:76-110): start with the fresh model
message queued, and run the loop against the finite stream of follow-up
responses the model service will produce. -/
def handle (cwd : List String) (ign : String → Bool) (fs : Entry)
    (message : Message) (responses : List Message) : HandleOut :=
  handleLoop cwd ign message.role fs [] [message] responses 0

/-- When the stream suffices, the block pass consumes exactly one response
per `tool_use` block, enqueues exactly those responses in order, and
dispatches exactly once per `tool_use` block. -/
theorem processBlocks_spec (cwd : List String) (ign : String → Bool) :
    ∀ (blocks : List ContentBlock) (fs : Entry) (conv rest : List Message),
    (processBlocks cwd ign fs conv rest blocks).exhausted = false →
    (processBlocks cwd ign fs conv rest blocks).enqueued
        = rest.take (blocks.filter ContentBlock.isToolUse).length
      ∧ (processBlocks cwd ign fs conv rest blocks).rest
        = rest.drop (blocks.filter ContentBlock.isToolUse).length
      ∧ (processBlocks cwd ign fs conv rest blocks).disp
        = (blocks.filter ContentBlock.isToolUse).length
      ∧ (blocks.filter ContentBlock.isToolUse).length ≤ rest.length := by
  intro blocks
  induction blocks with
  | nil =>
    intro fs conv rest _
    simp [processBlocks]
  | cons b blocks ih =>
    intro fs conv rest hex
    cases b with
    | text t =>
      simp only [processBlocks] at hex ⊢
      simpa [ContentBlock.isToolUse] using ih fs conv rest hex
    | toolResult r =>
      simp only [processBlocks] at hex ⊢
      simpa [ContentBlock.isToolUse] using ih fs conv rest hex
    | toolUse i n inpt =>
      cases rest with
      | nil => simp [processBlocks] at hex
      | cons m rest2 =>
        simp only [processBlocks] at hex ⊢
        obtain ⟨h1, h2, h3, h4⟩ := ih (run_tool cwd ign fs ⟨i, n, inpt⟩).2
          (conv ++ [⟨"user", [.toolResult (run_tool cwd ign fs ⟨i, n, inpt⟩).1]⟩]) rest2 hex
        refine ⟨?_, ?_, ?_, ?_⟩
        · simp only [List.filter_cons, ContentBlock.isToolUse, List.length_cons,
            List.take_succ_cons, if_true]
          rw [h1]
        · simp only [List.filter_cons, ContentBlock.isToolUse, List.length_cons,
            List.drop_succ_cons, if_true]
          rw [h2]
        · simp only [List.filter_cons, ContentBlock.isToolUse, List.length_cons, if_true]
          omega
        · simp only [List.filter_cons, ContentBlock.isToolUse, List.length_cons, if_true]
          omega

/-- Loop invariant of `handleLoop`: a run that never exhausts the finite
response stream ends with the queue empty, having consumed one response
and performed one dispatch per `tool_use` block of every processed
message. -/
theorem handleLoop_spec (cwd : List String) (ign : String → Bool) (origRole : String) :
    ∀ (n : Nat) (pending rest : List Message) (fs : Entry) (conv : List Message) (d : Nat),
    pending.length + rest.length ≤ n →
    (handleLoop cwd ign origRole fs conv pending rest d).exhausted = false →
    ∃ k, (handleLoop cwd ign origRole fs conv pending rest d).rest = rest.drop k
      ∧ (handleLoop cwd ign origRole fs conv pending rest d).disp = d + k
      ∧ k = toolUseSum pending + toolUseSum (rest.take k)
      ∧ k ≤ rest.length
      ∧ (handleLoop cwd ign origRole fs conv pending rest d).pendingFinal = [] := by
  intro n
  induction n with
  | zero =>
    intro pending rest fs conv d hn _
    have hp : pending = [] := by
      cases pending with
      | nil => rfl
      | cons a b => simp at hn
    subst hp
    refine ⟨0, ?_, ?_, ?_, ?_, ?_⟩ <;> simp [handleLoop, toolUseSum]
  | succ n ihn =>
    intro pending rest fs conv d hn hex
    cases pending with
    | nil => refine ⟨0, ?_, ?_, ?_, ?_, ?_⟩ <;> simp [handleLoop, toolUseSum]
    | cons cur pend =>
      rw [handleLoop] at hex ⊢
      by_cases ho : (processBlocks cwd ign fs (conv ++ [⟨origRole, cur.content⟩])
          rest cur.content).exhausted = true
      · rw [if_pos ho] at hex
        simp at hex
      · have ho' : (processBlocks cwd ign fs (conv ++ [⟨origRole, cur.content⟩])
            rest cur.content).exhausted = false := Bool.not_eq_true _ ▸ ho
        rw [if_neg ho] at hex ⊢
        obtain ⟨h1, h2, h3, h4⟩ := processBlocks_spec cwd ign cur.content fs
          (conv ++ [⟨origRole, cur.content⟩]) rest ho'
        set L := (cur.content.filter ContentBlock.isToolUse).length with hL
        have hmeas : (pend ++ (processBlocks cwd ign fs (conv ++ [⟨origRole, cur.content⟩])
            rest cur.content).enqueued).length
            + (processBlocks cwd ign fs (conv ++ [⟨origRole, cur.content⟩])
                rest cur.content).rest.length ≤ n := by
          rw [h1, h2]
          simp only [List.length_append, List.length_take, List.length_drop,
            List.length_cons] at hn ⊢
          omega
        obtain ⟨k2, hk1, hk2, hk3, hk4, hk5⟩ := ihn _ _ _ _ _ hmeas hex
        refine ⟨L + k2, ?_, ?_, ?_, ?_, hk5⟩
        · rw [hk1, h2, List.drop_drop]
          try congr 1
          try omega
        · rw [hk2, h3]
          omega
        · have happ : toolUseSum (pend ++ rest.take L)
              = toolUseSum pend + toolUseSum (rest.take L) := by
            simp [toolUseSum]
          rw [h1, h2, happ] at hk3
          have hcons : toolUseSum (cur :: pend) = toolUseCount cur + toolUseSum pend := by
            simp [toolUseSum]
          have hcur : toolUseCount cur = L := rfl
          rw [List.take_add]
          have hsum2 : toolUseSum (rest.take L ++ (rest.drop L).take k2)
              = toolUseSum (rest.take L) + toolUseSum ((rest.drop L).take k2) := by
            simp [toolUseSum]
          rw [hsum2, hcons, hcur]
          omega
        · rw [h2] at hk4
          simp only [List.length_drop] at hk4
          omega

/-- Concrete scenario fixtures: a model turn with one `tool_use`, whose
follow-up response contains another `tool_use`, whose follow-up response is
text only. -/
def c7fs : Entry := .dir [("d", .file "z")]

def c7block (i : String) : ContentBlock :=
  .toolUse i "list_files" [("path", "/d")]

def c7msg0 : Message := ⟨"assistant", [c7block "t1"]⟩

def c7m1 : Message := ⟨"assistant", [c7block "t2"]⟩

def c7m2 : Message := ⟨"assistant", [.text "done"]⟩

def c7result (i : String) : List (String × RVal) :=
  [("type", .s "tool_result"), ("tool_use_id", .s i), ("content", .s "[]")]

/-- C7: whenever the finite response stream suffices, the inner loop of
`handle` terminates exactly when the pending queue empties, having made
one dispatch and consumed one follow-up response per `tool_use` block of
the processed messages (so model calls total one initial plus one per
dispatch); and in the concrete two-`tool_use` scenario the run performs
exactly two dispatches and consumes exactly the two follow-up responses
(three model calls in total), each `ToolResult` appended as a `user`
message immediately after its `tool_use`. -/
theorem c7_handle_dispatch_counts :
    (∀ (cwd : List String) (ign : String → Bool) (fs : Entry) (msg : Message)
      (responses : List Message),
      (handle cwd ign fs msg responses).exhausted = false →
      (handle cwd ign fs msg responses).pendingFinal = []
      ∧ ∃ k, (handle cwd ign fs msg responses).disp = k
        ∧ (handle cwd ign fs msg responses).rest = responses.drop k
        ∧ k = toolUseCount msg + toolUseSum (responses.take k))
    ∧ handle ["r"] (fun _ => false) c7fs c7msg0 [c7m1, c7m2] =
      ⟨c7fs,
       [⟨"assistant", [c7block "t1"]⟩, ⟨"user", [.toolResult (c7result "t1")]⟩,
        ⟨"assistant", [c7block "t2"]⟩, ⟨"user", [.toolResult (c7result "t2")]⟩,
        ⟨"assistant", [.text "done"]⟩],
       [], 2, false, []⟩ := by
  constructor
  · intro cwd ign fs msg responses hex
    obtain ⟨k, hk1, hk2, hk3, hk4, hk5⟩ := handleLoop_spec cwd ign msg.role
      (1 + responses.length) [msg] responses fs [] 0 (by simp) hex
    refine ⟨hk5, k, ?_, ?_, ?_⟩
    · show (handleLoop cwd ign msg.role fs [] [msg] responses 0).disp = k
      rw [hk2]
      omega
    · show (handleLoop cwd ign msg.role fs [] [msg] responses 0).rest = responses.drop k
      exact hk1
    · have hone : toolUseSum [msg] = toolUseCount msg := by simp [toolUseSum]
      rw [hone] at hk3
      exact hk3
  · have hrun : ∀ i : String,
        run_tool ["r"] (fun _ => false) (Entry.dir [("d", Entry.file "z")])
            ⟨i, "list_files", [("path", "/d")]⟩
          = (c7result i, Entry.dir [("d", Entry.file "z")]) := fun i => rfl
    simp [handle, handleLoop, processBlocks, c7msg0, c7m1, c7m2, c7block, c7fs, hrun]

/-- C7 witness: the general clause applied to the concrete scenario. -/
theorem c7_handle_dispatch_counts_witness :
    (handle ["r"] (fun _ => false) c7fs c7msg0 [c7m1, c7m2]).pendingFinal = []
    ∧ ∃ k, (handle ["r"] (fun _ => false) c7fs c7msg0 [c7m1, c7m2]).disp = k
      ∧ (handle ["r"] (fun _ => false) c7fs c7msg0 [c7m1, c7m2]).rest
        = [c7m1, c7m2].drop k
      ∧ k = toolUseCount c7msg0 + toolUseSum ([c7m1, c7m2].take k) :=
  c7_handle_dispatch_counts.1 ["r"] (fun _ => false) c7fs c7msg0 [c7m1, c7m2]
    (by rw [c7_handle_dispatch_counts.2])
